import Mathlib

/-!
# Verification of the `bpl` bounded power-law library

Shallow embedding of `bpl.py` (functions `sample`, `pdf`, `cdf`, `histogram`
and the helper `_logbins`) together with the numpy primitives they call
(`np.linspace`/`np.logspace`, `np.histogram`).

Modelling conventions:

* Python floats are modelled as real numbers; `x ** y` on floats is `Real.rpow`.
  Mathlib's `Real.log` is total (it returns `Real.log |x|` on negative
  arguments) where IEEE arithmetic produces `nan`; every theorem that touches
  a logarithm of a negative number only relies on the error/no-error structure
  of the result or on disequalities, which agree with the `nan` behaviour.
* A Python function that can raise is modelled as `Except String _`; an
  `assert` or a library `ValueError` becomes `.error msg`.
* `np.random.rand(size)` is modelled by passing the vector of uniform draws
  `rs : List ℝ` explicitly (the spec itself asks for an injectable random
  source); `size` is `rs.length`.
* The optional `xmax`/`bins` arguments are `Option` values, and the Python
  truthiness tests `not xmax` / `not bins` on them are modelled faithfully,
  including the `ValueError` that `not bins` raises on an ndarray with two or
  more entries and the fact that `xmax = 0.0` is falsy.
* `np.histogram` counts each half-open bin `[e i, e (i+1))`, the last bin
  being closed, and with `density=True` divides each count by
  (total in-range count × bin width), exactly as numpy does.  numpy's
  monotonicity check on the bin edges is not modelled: on every reachable
  default-edge input it either passes or compares `nan`s (which IEEE-compare
  false, hence also pass), so it never fires in the original code.
* The `exec`-based keyword handling in `histogram` is modelled as actually
  rebinding the recognised option (`density`), the behaviour under the
  Python 2 semantics the module was written for.
-/

namespace BPL

noncomputable section

open Real List

/-- `np.linspace start stop num`: `num` evenly spaced points from `start` to
`stop` inclusive (the `i`-th point is `start + i·(stop-start)/(num-1)`;
for `num = 1` this is just `[start]`, for `num = 0` the empty list). -/
def linspace (start stop : ℝ) (num : ℕ) : List ℝ :=
  (List.range num).map fun i : ℕ =>
    start + (i : ℝ) * (stop - start) / ((num : ℝ) - 1)

/-- `np.logspace start stop num` (base 10): `10 ^ p` for each linspace point. -/
def logspace (start stop : ℝ) (num : ℕ) : List ℝ :=
  (linspace start stop num).map fun p => (10 : ℝ) ^ p

/-- The raw bin counts of `np.histogram arr edges`: bin `i` counts the values
in `[edges i, edges (i+1))`, except that the last bin is closed on both
ends. -/
def binCounts (arr : List ℝ) : List ℝ → List ℕ
  | [] => []
  | [_] => []
  | [lo, hi] => [arr.countP fun x => decide (lo ≤ x ∧ x ≤ hi)]
  | lo :: hi :: e :: rest =>
    (arr.countP fun x => decide (lo ≤ x ∧ x < hi)) :: binCounts arr (hi :: e :: rest)

/-- `np.diff edges`: the widths of the bins. -/
def binWidths : List ℝ → List ℝ
  | e₁ :: e₂ :: rest => (e₂ - e₁) :: binWidths (e₂ :: rest)
  | _ => []

/-- The `density=True` normalisation of `np.histogram`: each count is divided
by (sum of all counts × width of its bin). -/
def densityNormalize (counts : List ℕ) (edges : List ℝ) : List ℝ :=
  (counts.zip (binWidths edges)).map fun p =>
    (p.1 : ℝ) / ((counts.sum : ℝ) * p.2)

/-- The message of the `assert alpha > 1` in `sample`, `pdf` and `cdf`. -/
def assertMsg : String := "Power law exponent should be greater than 1!"

/-- The `ValueError` numpy raises when `.min()` is reduced over an empty
selection (this is what `_logbins` hits on an empty or all-zero sample). -/
def minReduceMsg : String :=
  "zero-size array to reduction operation minimum which has no identity"

/-- The `ValueError` Python raises when `not bins` is evaluated on an ndarray
with more than one element. -/
def truthMsg : String :=
  "The truth value of an array with more than one element is ambiguous."

/-- One inverse-transform draw of `sample` (bpl.py lines 141-148) applied to a
single uniform deviate `r`.  `xmax = none` (absent) and `xmax = some 0`
(falsy in Python) both select the unbounded branch. -/
def sampleScalar (alpha xmin : ℝ) (xmax : Option ℝ) (r : ℝ) : ℝ :=
  let beta := 1 - alpha
  match xmax with
  | none => xmin * (1 - r) ^ (1 / beta)
  | some w =>
    if w = 0 then xmin * (1 - r) ^ (1 / beta)
    else (xmin ^ beta + (w ^ beta - xmin ^ beta) * r) ^ (1 / beta)

/-- `bpl.sample`: asserts `alpha > 1`, then maps the inverse CDF over the
uniform draws `rs` (the model of `np.random.rand(size)`). -/
def sample (alpha : ℝ) (rs : List ℝ) (xmin : ℝ) (xmax : Option ℝ) :
    Except String (List ℝ) :=
  if 1 < alpha then .ok (rs.map (sampleScalar alpha xmin xmax))
  else .error assertMsg

/-- The density formula of `pdf` (bpl.py lines 179-186) at one point. -/
def pdfScalar (alpha xmin : ℝ) (xmax : Option ℝ) (x : ℝ) : ℝ :=
  let beta := 1 - alpha
  match xmax with
  | none => (-beta / xmin ^ beta) * x ^ (-alpha)
  | some w =>
    if w = 0 then (-beta / xmin ^ beta) * x ^ (-alpha)
    else (beta / (w ^ beta - xmin ^ beta)) * x ^ (-alpha)

/-- `bpl.pdf`: asserts `alpha > 1`, then evaluates the density elementwise. -/
def pdf (xs : List ℝ) (alpha xmin : ℝ) (xmax : Option ℝ) :
    Except String (List ℝ) :=
  if 1 < alpha then .ok (xs.map (pdfScalar alpha xmin xmax))
  else .error assertMsg

/-- The cumulative-probability formula of `cdf` (bpl.py lines 216-222) at one
point. -/
def cdfScalar (alpha xmin : ℝ) (xmax : Option ℝ) (x : ℝ) : ℝ :=
  let beta := 1 - alpha
  match xmax with
  | none => 1 - (x / xmin) ^ beta
  | some w =>
    if w = 0 then 1 - (x / xmin) ^ beta
    else (x ^ beta - xmin ^ beta) / (w ^ beta - xmin ^ beta)

/-- `bpl.cdf`: asserts `alpha > 1`, then evaluates the CDF elementwise. -/
def cdf (xs : List ℝ) (alpha xmin : ℝ) (xmax : Option ℝ) :
    Except String (List ℝ) :=
  if 1 < alpha then .ok (xs.map (cdfScalar alpha xmin xmax))
  else .error assertMsg

/-- `bpl._logbins`: Sturges bin count `⌈log₂ n⌉ + 1`, the minimum of the
*nonzero* entries (`arr[arr != 0.].min()`), the maximum of all entries, and
`np.logspace` between their base-10 logarithms.  The only raising operation
is the `.min()` reduction over the nonzero selection, which raises numpy's
zero-size-reduction `ValueError` when the sample is empty or all zeros. -/
def logbins (arr : List ℝ) : Except String (List ℝ) :=
  match arr with
  | [] => .error minReduceMsg
  | a :: rest =>
    let nbins : ℤ := ⌈Real.logb 2 ((a :: rest).length : ℝ)⌉ + 1
    match (a :: rest).filter (fun x => decide (x ≠ 0)) with
    | [] => .error minReduceMsg
    | m :: ms =>
      .ok (logspace (Real.logb 10 (ms.foldl min m))
             (Real.logb 10 (rest.foldl max a)) nbins.toNat)

/-- The Python truthiness test `not bins` of `histogram`, for `bins` either
`None` or an ndarray: `None` and an empty array are falsy, a one-element
array has the truth value of its entry, and an array with two or more
elements raises a `ValueError`.  Returns the value of `bins` as a Python
boolean. -/
def binsTruthy (bins : Option (List ℝ)) : Except String Bool :=
  match bins with
  | none => .ok false
  | some [] => .ok false
  | some [x] => .ok (decide (x ≠ 0))
  | some (_ :: _ :: _) => .error truthMsg

/-- The values `bpl.histogram` returns for given edges: raw counts (cast to
float) by default, the numpy density normalisation when `density` is set. -/
def histValues (arr : List ℝ) (edges : List ℝ) (density : Bool) : List ℝ :=
  if density then densityNormalize (binCounts arr edges) edges
  else (binCounts arr edges).map fun c : ℕ => (c : ℝ)

/-- `bpl.histogram` (with `plot=False`, the numeric core): evaluates
`not bins`, constructs default log-spaced edges via `_logbins` when `bins`
is falsy, and returns `(counts, edges)` from `np.histogram`.  The `density`
flag is the recognised `**kwargs` option (default `False`). -/
def histogram (arr : List ℝ) (bins : Option (List ℝ)) (density : Bool) :
    Except String (List ℝ × List ℝ) :=
  match binsTruthy bins with
  | .error e => .error e
  | .ok true =>
    let edges := bins.getD []
    .ok (histValues arr edges density, edges)
  | .ok false =>
    match logbins arr with
    | .error e => .error e
    | .ok edges => .ok (histValues arr edges density, edges)

/-- Modelled from the spec (§4.5 LogHistogramEstimator), for comparison with
the code's `logbins`: the spec says `arrMin` is the minimum of the
*strictly-positive* elements, that an empty sample fails with `EmptySample`,
and that a sample with no strictly-positive element fails with
`DegenerateSupport`; bin count and log-spacing as in the code. -/
def specLogbins (arr : List ℝ) : Except String (List ℝ) :=
  if arr.length = 0 then .error "EmptySample"
  else
    match arr.filter (fun x => decide (0 < x)) with
    | [] => .error "DegenerateSupport"
    | m :: ms =>
      .ok (logspace (Real.logb 10 (ms.foldl min m))
             (Real.logb 10 (arr.foldl max (m :: ms).headI))
             (⌈Real.logb 2 (arr.length : ℝ)⌉ + 1).toNat)

/-- `true` iff the computation returned normally (did not raise). -/
def isOkE {α : Type} (e : Except String α) : Bool :=
  match e with
  | .ok _ => true
  | .error _ => false

/-- The edges component of a `histogram` result (`[]` on error). -/
def sndD (e : Except String (List ℝ × List ℝ)) : List ℝ :=
  match e with
  | .ok p => p.2
  | .error _ => []

/-- The value of a `logbins`-style result (`[]` on error). -/
def okD (e : Except String (List ℝ)) : List ℝ :=
  match e with
  | .ok l => l
  | .error _ => []

/-! ## List and binning infrastructure -/

/-- Folding `min` over a list yields a lower bound of seed and elements. -/
theorem foldl_min_le_all : ∀ (l : List ℝ) (a : ℝ), ∀ x ∈ a :: l, l.foldl min a ≤ x := by
  intro l
  induction l with
  | nil => intro a x hx; simp at hx; simp [hx]
  | cons b t ih =>
    intro a x hx
    have hseed := ih (min a b) (min a b) (by simp)
    rcases List.mem_cons.mp hx with rfl | hx2
    · exact le_trans hseed (min_le_left _ _)
    · rcases List.mem_cons.mp hx2 with rfl | hx3
      · exact le_trans hseed (min_le_right _ _)
      · exact ih (min a b) x (List.mem_cons_of_mem _ hx3)

/-- Folding `min` over a list returns a member of seed-and-list. -/
theorem foldl_min_mem : ∀ (l : List ℝ) (a : ℝ), l.foldl min a ∈ a :: l := by
  intro l
  induction l with
  | nil => intro a; simp
  | cons b t ih =>
    intro a
    have := ih (min a b)
    rcases List.mem_cons.mp this with h | h
    · rcases min_choice a b with hc | hc <;> rw [List.foldl_cons, h, hc] <;> simp
    · rw [List.foldl_cons]
      exact List.mem_cons_of_mem _ (List.mem_cons_of_mem _ h)

/-- Folding `max` over a list yields an upper bound of seed and elements. -/
theorem le_foldl_max_all : ∀ (l : List ℝ) (a : ℝ), ∀ x ∈ a :: l, x ≤ l.foldl max a := by
  intro l
  induction l with
  | nil => intro a x hx; simp at hx; simp [hx]
  | cons b t ih =>
    intro a x hx
    have hseed := ih (max a b) (max a b) (by simp)
    rcases List.mem_cons.mp hx with rfl | hx2
    · exact le_trans (le_max_left _ _) hseed
    · rcases List.mem_cons.mp hx2 with rfl | hx3
      · exact le_trans (le_max_right _ _) hseed
      · exact ih (max a b) x (List.mem_cons_of_mem _ hx3)

/-- Folding `max` over a list returns a member of seed-and-list. -/
theorem foldl_max_mem : ∀ (l : List ℝ) (a : ℝ), l.foldl max a ∈ a :: l := by
  intro l
  induction l with
  | nil => intro a; simp
  | cons b t ih =>
    intro a
    have := ih (max a b)
    rcases List.mem_cons.mp this with h | h
    · rcases max_choice a b with hc | hc <;> rw [List.foldl_cons, h, hc] <;> simp
    · rw [List.foldl_cons]
      exact List.mem_cons_of_mem _ (List.mem_cons_of_mem _ h)

/-- The fold computing `arr.min()` agrees with any stated minimum. -/
theorem foldl_min_eq (m mn : ℝ) (ms : List ℝ) (h1 : mn ∈ m :: ms)
    (h2 : ∀ x ∈ m :: ms, mn ≤ x) : ms.foldl min m = mn :=
  le_antisymm (foldl_min_le_all ms m mn h1) (h2 _ (foldl_min_mem ms m))

/-- The fold computing `arr.max()` agrees with any stated maximum. -/
theorem foldl_max_eq (m mx : ℝ) (ms : List ℝ) (h1 : mx ∈ m :: ms)
    (h2 : ∀ x ∈ m :: ms, x ≤ mx) : ms.foldl max m = mx :=
  le_antisymm (h2 _ (foldl_max_mem ms m)) (le_foldl_max_all ms m mx h1)

/-- `getLastD` of a non-empty list is a member. -/
theorem getLastD_mem : ∀ (l : List ℝ) (d : ℝ), l ≠ [] → l.getLastD d ∈ l := by
  intro l
  induction l with
  | nil => intro d h; exact absurd rfl h
  | cons a t ih =>
    intro d _
    cases t with
    | nil => simp
    | cons b t2 =>
      have : (a :: b :: t2).getLastD d = (b :: t2).getLastD a := rfl
      rw [this]
      exact List.mem_cons_of_mem _ (ih a (by simp))

/-- Counts of two pointwise-disjoint predicates add to the count of their
disjunction. -/
theorem countP_disjoint (p q : ℝ → Bool) (l : List ℝ)
    (h : ∀ a, ¬(p a = true ∧ q a = true)) :
    l.countP p + l.countP q = l.countP (fun a => p a || q a) := by
  induction l with
  | nil => simp
  | cons a l ih =>
    have ha := h a
    simp only [List.countP_cons]
    cases hpa : p a <;> cases hqa : q a <;> simp [hpa, hqa] at ha ⊢ <;> omega

/-- Splitting `[lo, L]` at an intermediate edge `hi` preserves the count. -/
theorem countP_union_split (arr : List ℝ) (lo hi L : ℝ) (h1 : lo ≤ hi)
    (h2 : hi ≤ L) :
    arr.countP (fun x => decide (lo ≤ x ∧ x < hi)) +
      arr.countP (fun x => decide (hi ≤ x ∧ x ≤ L)) =
    arr.countP (fun x => decide (lo ≤ x ∧ x ≤ L)) := by
  rw [countP_disjoint]
  · apply List.countP_congr
    intro x _
    simp only [Bool.or_eq_true, decide_eq_true_eq]
    constructor
    · rintro (⟨ha, hb⟩ | ⟨ha, hb⟩) <;> exact ⟨by linarith, by linarith⟩
    · rintro ⟨ha, hb⟩
      by_cases hx : x < hi
      · exact Or.inl ⟨ha, hx⟩
      · exact Or.inr ⟨not_lt.mp hx, hb⟩
  · intro a ⟨hpa, hqa⟩
    simp only [decide_eq_true_eq] at hpa hqa
    linarith [hpa.2, hqa.1]

/-- Over non-decreasing edges, the bin counts sum to the number of sample
points between the first and the last edge. -/
theorem binCounts_sum (arr : List ℝ) :
    ∀ (rest : List ℝ) (lo : ℝ), rest ≠ [] →
      (lo :: rest).Pairwise (· ≤ ·) →
      (binCounts arr (lo :: rest)).sum =
        arr.countP (fun x => decide (lo ≤ x ∧ x ≤ (lo :: rest).getLastD 0)) := by
  intro rest
  induction rest with
  | nil => intro lo h; exact absurd rfl h
  | cons hi r ih =>
    intro lo _ hp
    cases r with
    | nil => simp [binCounts]
    | cons e r2 =>
      have hp' : (hi :: e :: r2).Pairwise (· ≤ ·) := hp.of_cons
      have hlohi : lo ≤ hi := (List.pairwise_cons.mp hp).1 hi (by simp)
      have ihr := ih hi (by simp) hp'
      have hLmem : (hi :: e :: r2).getLastD 0 ∈ hi :: e :: r2 :=
        getLastD_mem _ _ (by simp)
      have hhiL : hi ≤ (hi :: e :: r2).getLastD 0 := by
        rcases List.mem_cons.mp hLmem with h | h
        · rw [h]
        · exact (List.pairwise_cons.mp hp').1 _ h
      have hLeq : (lo :: hi :: e :: r2).getLastD 0 = (hi :: e :: r2).getLastD 0 := rfl
      simp only [binCounts, List.sum_cons]
      rw [ihr, hLeq, countP_union_split arr lo hi _ hlohi hhiL]

/-- `binCounts` produces one count per bin. -/
theorem binCounts_length (arr : List ℝ) :
    ∀ (edges : List ℝ), (binCounts arr edges).length = edges.length - 1 := by
  intro edges
  induction edges with
  | nil => rfl
  | cons lo rest ih =>
    cases rest with
    | nil => rfl
    | cons hi r =>
      cases r with
      | nil => rfl
      | cons e r2 =>
        simp only [binCounts, List.length_cons] at ih ⊢
        omega

/-- `binWidths` produces one width per bin. -/
theorem binWidths_length :
    ∀ (edges : List ℝ), (binWidths edges).length = edges.length - 1 := by
  intro edges
  induction edges with
  | nil => rfl
  | cons e1 rest ih =>
    cases rest with
    | nil => rfl
    | cons e2 r =>
      simp only [binWidths, List.length_cons] at ih ⊢
      omega

/-- The `i`-th bin width is the difference of consecutive edges. -/
theorem binWidths_getD :
    ∀ (edges : List ℝ) (i : ℕ), i + 1 < edges.length →
      (binWidths edges).getD i 0 = edges.getD (i + 1) 0 - edges.getD i 0 := by
  intro edges
  induction edges with
  | nil => intro i h; simp at h
  | cons e1 rest ih =>
    intro i h
    cases rest with
    | nil => simp at h
    | cons e2 r =>
      cases i with
      | zero => rfl
      | succ j =>
        have hj : j + 1 < (e2 :: r).length := by
          simp only [List.length_cons] at h ⊢; omega
        have := ih j hj
        simpa [binWidths] using this

/-- `logspace` yields `num` edges. -/
theorem logspace_length (s t : ℝ) (num : ℕ) : (logspace s t num).length = num := by
  simp [logspace, linspace]

/-- The `i`-th entry of `logspace`. -/
theorem logspace_getD (s t : ℝ) (num i : ℕ) (h : i < num) :
    (logspace s t num).getD i 0 =
      10 ^ (s + i * (t - s) / ((num : ℝ) - 1)) := by
  unfold logspace linspace
  rw [List.map_map]
  rw [List.getD_eq_getElem _ _ (by simpa using h)]
  simp

/-- The first entry of `logspace` is `10 ^ start`. -/
theorem logspace_getD_zero (s t : ℝ) (num : ℕ) (h : 0 < num) :
    (logspace s t num).getD 0 0 = 10 ^ s := by
  rw [logspace_getD s t num 0 h]
  norm_num

/-- The last entry of `logspace` is `10 ^ stop` (when there are at least two
points). -/
theorem logspace_getLastD (s t : ℝ) (num : ℕ) (h : 2 ≤ num) :
    (logspace s t num).getLastD 0 = 10 ^ t := by
  obtain ⟨k, rfl⟩ : ∃ k, num = k + 1 := ⟨num - 1, by omega⟩
  have hk1 : 1 ≤ k := by omega
  have hk : (k : ℝ) ≠ 0 := by
    have : (1 : ℝ) ≤ (k : ℝ) := by exact_mod_cast hk1
    linarith
  unfold logspace linspace
  rw [List.range_succ, List.map_append, List.map_append]
  simp only [List.map_cons, List.map_nil]
  rw [show ∀ (l : List ℝ) (x : ℝ), (l ++ [x]).getLastD 0 = x from
    fun l x => by simp [List.getLastD_eq_getLast?]]
  congr 1
  push_cast
  rw [add_sub_cancel_right]
  rw [mul_comm ((k : ℝ)) (t - s), mul_div_assoc, div_self hk, mul_one]
  ring

/-- `logspace` is monotone non-decreasing when `start ≤ stop`. -/
theorem logspace_pairwise (s t : ℝ) (num : ℕ) (hst : s ≤ t) :
    (logspace s t num).Pairwise (· ≤ ·) := by
  unfold logspace linspace
  rw [List.map_map]
  rw [List.pairwise_map]
  refine (List.pairwise_lt_range num).imp_of_mem ?_
  intro i j hi hj hij
  have hjnum : j < num := List.mem_range.mp hj
  have hnum2 : 2 ≤ num := by omega
  have hn1 : (0 : ℝ) < (num : ℝ) - 1 := by
    have : (2 : ℝ) ≤ (num : ℝ) := by exact_mod_cast hnum2
    linarith
  have hmul : (i : ℝ) * (t - s) ≤ (j : ℝ) * (t - s) := by
    have hij' : (i : ℝ) ≤ (j : ℝ) := by exact_mod_cast le_of_lt hij
    have hts : (0 : ℝ) ≤ t - s := by linarith
    exact mul_le_mul_of_nonneg_right hij' hts
  have hexp : s + i * (t - s) / ((num : ℝ) - 1) ≤
      s + j * (t - s) / ((num : ℝ) - 1) :=
    add_le_add_left ((div_le_div_iff_of_pos_right hn1).mpr hmul) s
  simp only [Function.comp]
  exact (Real.rpow_le_rpow_left_iff (by norm_num)).mpr hexp

/-- Sturges' count `⌈log₂ n⌉ + 1` is at least `2` for `n ≥ 2`. -/
theorem nbins_ge_two (n : ℕ) (h : 2 ≤ n) :
    2 ≤ (⌈Real.logb 2 (n : ℝ)⌉ + 1).toNat := by
  have h1 : (1 : ℝ) ≤ Real.logb 2 (n : ℝ) := by
    rw [show (1 : ℝ) = Real.logb 2 2 from
      (Real.logb_self_eq_one (by norm_num)).symm]
    exact Real.logb_le_logb_of_le (by norm_num) (by norm_num)
      (by exact_mod_cast h)
  have h2 : (1 : ℤ) ≤ ⌈Real.logb 2 (n : ℝ)⌉ := by
    exact_mod_cast le_trans h1 (Int.le_ceil _)
  omega

/-- Evaluation of `_logbins` once the nonzero selection is known: the edges
are `np.logspace` between the logs of the selection minimum and the overall
maximum, with the Sturges count. -/
theorem logbins_cons_eval (a : ℝ) (rest : List ℝ) (m : ℝ) (ms : List ℝ)
    (hf : (a :: rest).filter (fun x => decide (x ≠ 0)) = m :: ms) :
    logbins (a :: rest) = .ok (logspace (Real.logb 10 (ms.foldl min m))
      (Real.logb 10 (rest.foldl max a))
      (⌈Real.logb 2 (((a :: rest).length : ℕ) : ℝ)⌉ + 1).toNat) := by
  simp only [logbins]
  rw [hf]

/-- `_logbins` raises the zero-size-reduction error exactly on samples with
no nonzero element. -/
theorem logbins_error_iff (arr : List ℝ) :
    logbins arr = .error minReduceMsg ↔
      arr.filter (fun x => decide (x ≠ 0)) = [] := by
  cases arr with
  | nil => simp [logbins]
  | cons a rest =>
    cases hf : (a :: rest).filter (fun x => decide (x ≠ 0)) with
    | nil =>
      simp only [logbins]
      rw [hf]
      simp
    | cons m ms =>
      rw [logbins_cons_eval a rest m ms hf]
      simp

/-- Pointwise evaluation of the density normalisation. -/
theorem densityNormalize_getD (counts : List ℕ) (edges : List ℝ) (i : ℕ)
    (hc : counts.length = edges.length - 1) (hi : i + 1 < edges.length) :
    (densityNormalize counts edges).getD i 0 =
      (counts.getD i 0 : ℝ) /
        ((counts.sum : ℝ) * (edges.getD (i + 1) 0 - edges.getD i 0)) := by
  have hw : (binWidths edges).length = edges.length - 1 := binWidths_length edges
  have hzl : (counts.zip (binWidths edges)).length = edges.length - 1 := by
    rw [List.length_zip, hc, hw]
    omega
  have hilt : i < edges.length - 1 := by omega
  have hiz : i < (counts.zip (binWidths edges)).length := by omega
  have hic : i < counts.length := by omega
  have hiw : i < (binWidths edges).length := by omega
  unfold densityNormalize
  rw [List.getD_eq_getElem _ _ (by simpa using hiz)]
  rw [List.getElem_map, List.getElem_zip]
  rw [List.getD_eq_getElem _ _ hic]
  rw [← binWidths_getD edges i hi, List.getD_eq_getElem _ _ hiw]

/-- With default bins, `histogram` returns the counts over the `_logbins`
edges. -/
theorem histogram_default_eval (arr : List ℝ) (edges : List ℝ)
    (hlb : logbins arr = .ok edges) (d : Bool) :
    histogram arr none d = .ok (histValues arr edges d, edges) := by
  simp only [histogram, binsTruthy]
  rw [hlb]

/-- On an all-positive sample with at least two entries, the default-bin
counts sum to the sample size: the default edges span exactly the sample
range, every point lands in some bin, and no point is counted twice. -/
theorem binCountsSum_pos (a : ℝ) (rest : List ℝ)
    (hpos : ∀ x ∈ a :: rest, 0 < x) (hlen : 2 ≤ (a :: rest).length) :
    (binCounts (a :: rest)
      (logspace (Real.logb 10 (rest.foldl min a))
        (Real.logb 10 (rest.foldl max a))
        (⌈Real.logb 2 (((a :: rest).length : ℕ) : ℝ)⌉ + 1).toNat)).sum =
    (a :: rest).length := by
  set mn := rest.foldl min a with hmn_def
  set mx := rest.foldl max a with hmx_def
  set N := (⌈Real.logb 2 (((a :: rest).length : ℕ) : ℝ)⌉ + 1).toNat with hN_def
  have hmn_mem : mn ∈ a :: rest := foldl_min_mem rest a
  have hmx_mem : mx ∈ a :: rest := foldl_max_mem rest a
  have hmn_pos : 0 < mn := hpos _ hmn_mem
  have hmx_pos : 0 < mx := hpos _ hmx_mem
  have hmnmx : mn ≤ mx :=
    le_trans (foldl_min_le_all rest a a (by simp))
      (le_foldl_max_all rest a a (by simp))
  have hst : Real.logb 10 mn ≤ Real.logb 10 mx :=
    Real.logb_le_logb_of_le (by norm_num) hmn_pos hmnmx
  have hN2 : 2 ≤ N := nbins_ge_two _ hlen
  set edges := logspace (Real.logb 10 mn) (Real.logb 10 mx) N with hedges_def
  have hlenE : edges.length = N := logspace_length _ _ _
  have hpair : edges.Pairwise (· ≤ ·) := logspace_pairwise _ _ _ hst
  have hhead : edges.getD 0 0 = mn := by
    rw [hedges_def, logspace_getD_zero _ _ _ (by omega)]
    exact Real.rpow_logb (by norm_num) (by norm_num) hmn_pos
  have hlast : edges.getLastD 0 = mx := by
    rw [hedges_def, logspace_getLastD _ _ _ hN2]
    exact Real.rpow_logb (by norm_num) (by norm_num) hmx_pos
  obtain ⟨lo, r, hcons, hrne⟩ :
      ∃ lo r, edges = lo :: r ∧ r ≠ [] := by
    cases he : edges with
    | nil => rw [he] at hlenE; simp at hlenE; omega
    | cons lo r =>
      refine ⟨lo, r, rfl, ?_⟩
      intro hr
      rw [he, hr] at hlenE
      simp at hlenE
      omega
  rw [hcons]
  rw [binCounts_sum (a :: rest) r lo hrne (hcons ▸ hpair)]
  have hlo : lo = mn := by
    have := hhead
    rw [hcons] at this
    simpa using this
  have hlast2 : (lo :: r).getLastD 0 = mx := by rw [← hcons]; exact hlast
  rw [hlast2, hlo]
  apply List.countP_eq_length.mpr
  intro x hx
  simp only [decide_eq_true_eq]
  exact ⟨foldl_min_le_all rest a x hx, le_foldl_max_all rest a x hx⟩

/-! ## Claim C1: parameter validation -/

/-- C1 (counterexample): with `alpha = 3 > 1`, `xmin = 10`, `xmax = 5 ≤ xmin`,
the claim demands an `InvalidParameter` failure, but `cdf` raises nothing
and returns normally (here with value `[0]` at the point `x = 10`). -/
theorem claim1_counterexample :
    cdf [10] 3 10 (some 5) = .ok [0] ∧ (5 : ℝ) ≤ 10 := by
  refine ⟨?_, by norm_num⟩
  have h5 : (5 : ℝ) ≠ 0 := by norm_num
  simp [cdf, cdfScalar, h5, sub_self]

/-- C1 (amended): the only parameter check in `sample`, `pdf` and `cdf` is the
assertion `alpha > 1`; `xmin ≤ 0` and `xmax ≤ xmin` are never validated, so
(restricting to positive `xmin` and positive optional `xmax`, where the
power computations raise nothing) each of the three operations fails iff
`alpha ≤ 1`, regardless of the ordering of `xmin` and `xmax`. -/
theorem claim1_amended (alpha xmin : ℝ) (xmax : Option ℝ) (xs rs : List ℝ)
    (hxmin : 0 < xmin) (hxmax : ∀ w, xmax = some w → 0 < w) :
    ((∃ e, sample alpha rs xmin xmax = .error e) ↔ alpha ≤ 1) ∧
    ((∃ e, pdf xs alpha xmin xmax = .error e) ↔ alpha ≤ 1) ∧
    ((∃ e, cdf xs alpha xmin xmax = .error e) ↔ alpha ≤ 1) := by
  rcases lt_or_le 1 alpha with h | h
  · have h2 : ¬ alpha ≤ 1 := not_le.mpr h
    simp [sample, pdf, cdf, h, h2]
  · have h2 : ¬ (1 < alpha) := not_lt.mpr h
    simp [sample, pdf, cdf, h, h2]

/-- C1 (witness): amended claim instantiated at `alpha = 3`, `xmin = 10`,
`xmax = 5`. -/
theorem claim1_witness :
    ((∃ e, sample 3 [0] 10 (some 5) = .error e) ↔ (3 : ℝ) ≤ 1) ∧
    ((∃ e, pdf [10] 3 10 (some 5) = .error e) ↔ (3 : ℝ) ≤ 1) ∧
    ((∃ e, cdf [10] 3 10 (some 5) = .error e) ↔ (3 : ℝ) ≤ 1) :=
  claim1_amended 3 10 (some 5) [10] [0] (by norm_num)
    (fun w hw => by
      have : (5 : ℝ) = w := Option.some_inj.mp hw
      rw [← this]; norm_num)

/-! ## Claim C6: cdf boundary values -/

/-- C6 (confirmed): for `alpha > 1`, `0 < xmin` and `xmin < xmax`, the cdf is
`0` at `xmin` in both the unbounded and the bounded case, and `1` at `xmax`
in the bounded case. -/
theorem claim6 (alpha xmin w : ℝ) (h1 : 1 < alpha) (h2 : 0 < xmin)
    (h3 : xmin < w) :
    cdf [xmin] alpha xmin none = .ok [0] ∧
    cdf [xmin] alpha xmin (some w) = .ok [0] ∧
    cdf [w] alpha xmin (some w) = .ok [1] := by
  have hw0 : w ≠ 0 := ne_of_gt (lt_trans h2 h3)
  have hβ : 1 - alpha < 0 := by linarith
  have hk : w ^ (1 - alpha) < xmin ^ (1 - alpha) :=
    Real.rpow_lt_rpow_of_neg h2 h3 hβ
  have hkne : w ^ (1 - alpha) - xmin ^ (1 - alpha) ≠ 0 := (sub_neg.mpr hk).ne
  refine ⟨?_, ?_, ?_⟩
  · simp [cdf, h1, cdfScalar, div_self (ne_of_gt h2), Real.one_rpow]
  · simp [cdf, h1, cdfScalar, hw0, sub_self]
  · simp [cdf, h1, cdfScalar, hw0, div_self hkne]

/-- C6 (witness): instantiated at `alpha = 2`, `xmin = 1`, `xmax = 2`. -/
theorem claim6_witness :
    cdf [1] 2 1 none = .ok [0] ∧
    cdf [1] 2 1 (some 2) = .ok [0] ∧
    cdf [2] 2 1 (some 2) = .ok [1] :=
  claim6 2 1 2 (by norm_num) (by norm_num) (by norm_num)

/-! ## Claim C8: pdf non-negativity -/

/-- C8 (confirmed): for valid parameters and `x` inside the declared support,
`pdf` returns normally and the density value is non-negative, in both the
bounded and the unbounded case. -/
theorem claim8 (alpha xmin x : ℝ) (xmax : Option ℝ) (h1 : 1 < alpha)
    (h2 : 0 < xmin) (hx : xmin ≤ x)
    (hb : ∀ w, xmax = some w → xmin < w ∧ x ≤ w) :
    pdf [x] alpha xmin xmax = .ok [pdfScalar alpha xmin xmax x] ∧
    0 ≤ pdfScalar alpha xmin xmax x := by
  have hx0 : 0 ≤ x := le_trans (le_of_lt h2) hx
  have hβ : 1 - alpha < 0 := by linarith
  have hxa : 0 ≤ x ^ (-alpha) := Real.rpow_nonneg hx0 _
  refine ⟨by simp [pdf, h1], ?_⟩
  match xmax, hb with
  | none, _ =>
    have hkpos : 0 < -(1 - alpha) / xmin ^ (1 - alpha) :=
      div_pos (by linarith) (Real.rpow_pos_of_pos h2 _)
    show 0 ≤ -(1 - alpha) / xmin ^ (1 - alpha) * x ^ (-alpha)
    exact mul_nonneg (le_of_lt hkpos) hxa
  | some w, hb =>
    obtain ⟨hw, -⟩ := hb w rfl
    have hw0 : w ≠ 0 := ne_of_gt (lt_trans h2 hw)
    have hk : w ^ (1 - alpha) < xmin ^ (1 - alpha) :=
      Real.rpow_lt_rpow_of_neg h2 hw hβ
    have hkneg : w ^ (1 - alpha) - xmin ^ (1 - alpha) ≤ 0 := by linarith
    have hfrac : 0 ≤ (1 - alpha) / (w ^ (1 - alpha) - xmin ^ (1 - alpha)) :=
      div_nonneg_of_nonpos (le_of_lt hβ) hkneg
    simp only [pdfScalar, if_neg hw0]
    exact mul_nonneg hfrac hxa

/-- C8 (witness): instantiated at `alpha = 2`, `xmin = 1`, `x = 1`,
unbounded support. -/
theorem claim8_witness :
    pdf [1] 2 1 none = .ok [pdfScalar 2 1 none 1] ∧
    0 ≤ pdfScalar 2 1 none 1 :=
  claim8 2 1 1 none (by norm_num) (by norm_num) (by norm_num)
    (fun w hw => nomatch hw)

/-! ## Claim C2: samples stay inside the declared support -/

/-- Helper: one unbounded inverse-transform draw is at least `xmin`. -/
theorem sampleScalar_unbounded_ge (alpha xmin r : ℝ) (h1 : 1 < alpha)
    (h2 : 0 < xmin) (hr0 : 0 ≤ r) (hr1 : r < 1) :
    xmin ≤ sampleScalar alpha xmin none r := by
  have hβ : 1 - alpha < 0 := by linarith
  have h1r : 0 < 1 - r := by linarith
  have h1r' : 1 - r ≤ 1 := by linarith
  have hz : 1 / (1 - alpha) ≤ 0 := le_of_lt (one_div_neg.mpr hβ)
  have hge : 1 ≤ (1 - r) ^ (1 / (1 - alpha)) :=
    Real.one_le_rpow_of_pos_of_le_one_of_nonpos h1r h1r' hz
  show xmin ≤ xmin * (1 - r) ^ (1 / (1 - alpha))
  calc xmin = xmin * 1 := (mul_one xmin).symm
    _ ≤ xmin * (1 - r) ^ (1 / (1 - alpha)) :=
        mul_le_mul_of_nonneg_left hge (le_of_lt h2)

/-- Helper: one bounded inverse-transform draw lies in `[xmin, xmax]`. -/
theorem sampleScalar_bounded_mem (alpha xmin w r : ℝ) (h1 : 1 < alpha)
    (h2 : 0 < xmin) (hw : xmin < w) (hr0 : 0 ≤ r) (hr1 : r < 1) :
    xmin ≤ sampleScalar alpha xmin (some w) r ∧
    sampleScalar alpha xmin (some w) r ≤ w := by
  have hβ : 1 - alpha < 0 := by linarith
  have hβne : (1 - alpha) ≠ 0 := ne_of_lt hβ
  have hw0 : 0 < w := lt_trans h2 hw
  have hwne : w ≠ 0 := ne_of_gt hw0
  have ha : 0 < xmin ^ (1 - alpha) := Real.rpow_pos_of_pos h2 _
  have hwβ : 0 < w ^ (1 - alpha) := Real.rpow_pos_of_pos hw0 _
  have hba : w ^ (1 - alpha) ≤ xmin ^ (1 - alpha) :=
    Real.rpow_le_rpow_of_nonpos h2 (le_of_lt hw) (le_of_lt hβ)
  have hz : 1 / (1 - alpha) ≤ 0 := le_of_lt (one_div_neg.mpr hβ)
  have hupper :
      xmin ^ (1 - alpha) + (w ^ (1 - alpha) - xmin ^ (1 - alpha)) * r ≤
        xmin ^ (1 - alpha) := by nlinarith
  have hlower :
      w ^ (1 - alpha) ≤
        xmin ^ (1 - alpha) + (w ^ (1 - alpha) - xmin ^ (1 - alpha)) * r := by
    nlinarith
  have htpos :
      0 < xmin ^ (1 - alpha) + (w ^ (1 - alpha) - xmin ^ (1 - alpha)) * r :=
    lt_of_lt_of_le hwβ hlower
  have exmin : (xmin ^ (1 - alpha)) ^ (1 / (1 - alpha)) = xmin := by
    rw [← Real.rpow_mul (le_of_lt h2), mul_one_div_cancel hβne, Real.rpow_one]
  have ew : (w ^ (1 - alpha)) ^ (1 / (1 - alpha)) = w := by
    rw [← Real.rpow_mul (le_of_lt hw0), mul_one_div_cancel hβne, Real.rpow_one]
  have hlow :
      xmin ≤ (xmin ^ (1 - alpha) + (w ^ (1 - alpha) - xmin ^ (1 - alpha)) * r) ^
        (1 / (1 - alpha)) := by
    have := Real.rpow_le_rpow_of_nonpos htpos hupper hz
    rwa [exmin] at this
  have hhigh :
      (xmin ^ (1 - alpha) + (w ^ (1 - alpha) - xmin ^ (1 - alpha)) * r) ^
        (1 / (1 - alpha)) ≤ w := by
    have := Real.rpow_le_rpow_of_nonpos hwβ hlower hz
    rwa [ew] at this
  constructor
  · simp only [sampleScalar, if_neg hwne]
    exact hlow
  · simp only [sampleScalar, if_neg hwne]
    exact hhigh

/-- C2 (confirmed): for `alpha > 1`, `xmin > 0` and uniform draws in `[0,1)`,
`sample` returns normally; every element of the unbounded sample is
`≥ xmin`, and for `xmax > xmin` every element of the bounded sample lies in
`[xmin, xmax]`. -/
theorem claim2 (alpha xmin : ℝ) (rs : List ℝ) (h1 : 1 < alpha)
    (h2 : 0 < xmin) (hr : ∀ r ∈ rs, 0 ≤ r ∧ r < 1) :
    (sample alpha rs xmin none = .ok (rs.map (sampleScalar alpha xmin none)) ∧
      ∀ r ∈ rs, xmin ≤ sampleScalar alpha xmin none r) ∧
    (∀ w, xmin < w →
      sample alpha rs xmin (some w) =
        .ok (rs.map (sampleScalar alpha xmin (some w))) ∧
      ∀ r ∈ rs, xmin ≤ sampleScalar alpha xmin (some w) r ∧
        sampleScalar alpha xmin (some w) r ≤ w) := by
  refine ⟨⟨by simp [sample, h1], fun r hrm => ?_⟩, fun w hw => ⟨by simp [sample, h1], fun r hrm => ?_⟩⟩
  · obtain ⟨hr0, hr1⟩ := hr r hrm
    exact sampleScalar_unbounded_ge alpha xmin r h1 h2 hr0 hr1
  · obtain ⟨hr0, hr1⟩ := hr r hrm
    exact sampleScalar_bounded_mem alpha xmin w r h1 h2 hw hr0 hr1

/-- C2 (witness): instantiated at `alpha = 2`, `xmin = 1`, draws `[0]`. -/
theorem claim2_witness :
    (sample 2 [0] 1 none = .ok ([0].map (sampleScalar 2 1 none)) ∧
      ∀ r ∈ ([0] : List ℝ), (1 : ℝ) ≤ sampleScalar 2 1 none r) ∧
    (∀ w, (1 : ℝ) < w →
      sample 2 [0] 1 (some w) = .ok ([0].map (sampleScalar 2 1 (some w))) ∧
      ∀ r ∈ ([0] : List ℝ), (1 : ℝ) ≤ sampleScalar 2 1 (some w) r ∧
        sampleScalar 2 1 (some w) r ≤ w) :=
  claim2 2 1 [0] (by norm_num) (by norm_num)
    (by intro r hr; simp at hr; simp [hr])

/-! ## Claim C7: cdf monotonicity on the support -/

/-- Helper: the cdf formula is non-decreasing on `[xmin, ∞)`, in both
support cases. -/
theorem cdfScalar_mono (alpha xmin x1 x2 : ℝ) (xmax : Option ℝ)
    (h1 : 1 < alpha) (h2 : 0 < xmin) (hx1 : xmin ≤ x1) (h12 : x1 ≤ x2)
    (hb : ∀ w, xmax = some w → xmin < w) :
    cdfScalar alpha xmin xmax x1 ≤ cdfScalar alpha xmin xmax x2 := by
  have hβ : 1 - alpha < 0 := by linarith
  have hx1pos : 0 < x1 := lt_of_lt_of_le h2 hx1
  have hanti : x2 ^ (1 - alpha) ≤ x1 ^ (1 - alpha) :=
    Real.rpow_le_rpow_of_nonpos hx1pos h12 (le_of_lt hβ)
  match xmax, hb with
  | none, _ =>
    show 1 - (x1 / xmin) ^ (1 - alpha) ≤ 1 - (x2 / xmin) ^ (1 - alpha)
    have hd1 : 0 < x1 / xmin := div_pos hx1pos h2
    have hd12 : x1 / xmin ≤ x2 / xmin := by gcongr
    have := Real.rpow_le_rpow_of_nonpos hd1 hd12 (le_of_lt hβ)
    linarith
  | some w, hb =>
    have hw : xmin < w := hb w rfl
    have hwne : w ≠ 0 := ne_of_gt (lt_trans h2 hw)
    have hk : w ^ (1 - alpha) - xmin ^ (1 - alpha) < 0 :=
      sub_neg.mpr (Real.rpow_lt_rpow_of_neg h2 hw hβ)
    simp only [cdfScalar, if_neg hwne]
    rw [div_le_div_right_of_neg hk]
    linarith

/-- C7 (confirmed): for valid parameters and `xmin ≤ x1 ≤ x2`, the cdf
returned by `cdf` is monotonically non-decreasing, in both the bounded
and the unbounded case. -/
theorem claim7 (alpha xmin x1 x2 : ℝ) (xmax : Option ℝ) (h1 : 1 < alpha)
    (h2 : 0 < xmin) (hx1 : xmin ≤ x1) (h12 : x1 ≤ x2)
    (hb : ∀ w, xmax = some w → xmin < w) :
    cdf [x1, x2] alpha xmin xmax =
      .ok [cdfScalar alpha xmin xmax x1, cdfScalar alpha xmin xmax x2] ∧
    cdfScalar alpha xmin xmax x1 ≤ cdfScalar alpha xmin xmax x2 :=
  ⟨by simp [cdf, h1], cdfScalar_mono alpha xmin x1 x2 xmax h1 h2 hx1 h12 hb⟩

/-- C7 (witness): instantiated at `alpha = 2`, `xmin = 1`, `x1 = 1`,
`x2 = 2`, unbounded support. -/
theorem claim7_witness :
    cdf [1, 2] 2 1 none = .ok [cdfScalar 2 1 none 1, cdfScalar 2 1 none 2] ∧
    cdfScalar 2 1 none 1 ≤ cdfScalar 2 1 none 2 :=
  claim7 2 1 1 2 none (by norm_num) (by norm_num) (by norm_num) (by norm_num)
    (fun w hw => nomatch hw)

/-! ## Claim C4: histogram failure conditions -/

/-- C4 (counterexample): a sample of strictly negative elements has no
strictly-positive element, so the claim demands a `DegenerateSupport`
failure — but the nonzero selection `arr[arr != 0.]` is non-empty, its
`.min()` succeeds, and `histogram` returns normally (numpy propagates
`nan` bin edges without raising). -/
theorem claim4_counterexample :
    ((-2 : ℝ) ≤ 0 ∧ (-1 : ℝ) ≤ 0) ∧
    isOkE (histogram [-2, -1] none false) = true := by
  refine ⟨by norm_num, ?_⟩
  have hf : ([-2, -1] : List ℝ).filter (fun x => decide (x ≠ 0)) = [-2, -1] := by
    norm_num [List.filter_cons, List.filter_nil]
  have hlb := logbins_cons_eval (-2) [-1] (-2) [-1] hf
  rw [histogram_default_eval _ _ hlb false]
  rfl

/-- C4 (amended): with default bins, `histogram` fails iff the sample has no
nonzero element (it is empty or all zeros), and in both cases with the
same generic zero-size-reduction `ValueError`; a sample whose elements are
all negative is *not* rejected. -/
theorem claim4_amended (arr : List ℝ) (d : Bool) :
    histogram arr none d = .error minReduceMsg ↔
      arr.filter (fun x => decide (x ≠ 0)) = [] := by
  rw [← logbins_error_iff]
  cases hl : logbins arr with
  | ok edges =>
    rw [histogram_default_eval arr edges hl d]
    simp
  | error e =>
    have hh : histogram arr none d = .error e := by
      simp only [histogram, binsTruthy]
      rw [hl]
    rw [hh]
    simp

/-! ## Claim C9: raw counts sum to the sample size -/

/-- C9 (counterexample): the sample `[0, 1]` has two elements, but its zero
falls below the default edges (built from the nonzero minimum) and is
dropped, so the raw counts sum to `1`, not `2`. -/
theorem claim9_counterexample :
    histogram [0, 1] none false = .ok ([1], [1, 1]) ∧
    [(1 : ℝ)].sum ≠ (([0, 1] : List ℝ).length : ℝ) := by
  constructor
  · have hf : ([0, 1] : List ℝ).filter (fun x => decide (x ≠ 0)) = [1] := by
      norm_num [List.filter_cons, List.filter_nil]
    have hlb := logbins_cons_eval 0 [1] 1 [] hf
    have hceil : (⌈Real.logb 2 ((([0, 1] : List ℝ).length : ℕ) : ℝ)⌉ + 1).toNat = 2 := by
      have h2 : Real.logb 2 ((([0, 1] : List ℝ).length : ℕ) : ℝ) = 1 := by
        norm_num [Real.logb_self_eq_one]
      rw [h2]
      simp
    have hedges : logspace (Real.logb 10 (List.foldl min 1 []))
        (Real.logb 10 (List.foldl max 0 [1]))
        (⌈Real.logb 2 ((([0, 1] : List ℝ).length : ℕ) : ℝ)⌉ + 1).toNat = [1, 1] := by
      rw [hceil]
      norm_num [logspace, linspace, List.range_succ, Real.logb_one]
    rw [hedges] at hlb
    rw [histogram_default_eval _ _ hlb false]
    have hbc : binCounts [0, 1] [1, 1] = [1] := by
      simp only [binCounts]
      norm_num [List.countP_cons, List.countP_nil]
    simp [histValues, hbc]
  · norm_num

/-- C9 (amended): the raw counts sum to the number of sample points lying
within the default edges; since those edges span exactly the range of the
nonzero entries, the sum equals the sample size whenever every element is
strictly positive (sample size ≥ 2). -/
theorem claim9 (a : ℝ) (rest : List ℝ) (hpos : ∀ x ∈ a :: rest, 0 < x)
    (hlen : 2 ≤ (a :: rest).length) :
    ∀ counts edges, histogram (a :: rest) none false = .ok (counts, edges) →
      counts.sum = (((a :: rest).length : ℕ) : ℝ) := by
  intro counts edges hh
  have hf : (a :: rest).filter (fun x => decide (x ≠ 0)) = a :: rest :=
    List.filter_eq_self.mpr fun x hx => by
      simp [ne_of_gt (hpos x hx)]
  have hlb := logbins_cons_eval a rest a rest hf
  rw [histogram_default_eval _ _ hlb false] at hh
  have hco : counts = histValues (a :: rest)
      (logspace (Real.logb 10 (rest.foldl min a))
        (Real.logb 10 (rest.foldl max a))
        (⌈Real.logb 2 (((a :: rest).length : ℕ) : ℝ)⌉ + 1).toNat) false := by
    have := (Except.ok.inj hh)
    exact (congrArg Prod.fst this).symm
  rw [hco]
  simp only [histValues, if_neg (by simp : ¬ false = true)]
  rw [← Nat.cast_list_sum]
  rw [binCountsSum_pos a rest hpos hlen]

/-- Helper: the default edges of the sample `[1, 2]` are `[1, 2]`. -/
theorem logbins_one_two_eval : logbins [1, 2] = .ok [1, 2] := by
  have hf : ([1, 2] : List ℝ).filter (fun x => decide (x ≠ 0)) = [1, 2] := by
    norm_num [List.filter_cons, List.filter_nil]
  have hlb := logbins_cons_eval 1 [2] 1 [2] hf
  have hceil : (⌈Real.logb 2 ((([1, 2] : List ℝ).length : ℕ) : ℝ)⌉ + 1).toNat = 2 := by
    have h2 : Real.logb 2 ((([1, 2] : List ℝ).length : ℕ) : ℝ) = 1 := by
      norm_num [Real.logb_self_eq_one]
    rw [h2]
    simp
  have hedges : logspace (Real.logb 10 (List.foldl min 1 [2]))
      (Real.logb 10 (List.foldl max 1 [2]))
      (⌈Real.logb 2 ((([1, 2] : List ℝ).length : ℕ) : ℝ)⌉ + 1).toNat = [1, 2] := by
    rw [hceil]
    have hmin : List.foldl min (1 : ℝ) [2] = 1 := by norm_num
    have hmax : List.foldl max (1 : ℝ) [2] = 2 := by norm_num
    rw [hmin, hmax]
    simp only [logspace, linspace, List.range_succ, List.range_zero,
      List.map_cons, List.map_nil, List.nil_append, List.cons_append,
      Real.logb_one]
    norm_num [Real.rpow_logb]
  rw [hedges] at hlb
  exact hlb

/-- Helper: the single default bin of `[1, 2]` holds both points. -/
theorem binCounts_one_two : binCounts [1, 2] [1, 2] = [2] := by
  simp only [binCounts]
  norm_num [List.countP_cons, List.countP_nil]

/-- Helper: full evaluation of `histogram` on `[1, 2]` without
normalisation. -/
theorem histogram_one_two_eval :
    histogram [1, 2] none false = .ok ([2], [1, 2]) := by
  rw [histogram_default_eval _ _ logbins_one_two_eval false]
  simp [histValues, binCounts_one_two]

/-- C9 (witness): the all-positive two-point sample `[1, 2]`; its default
edges are `[1, 2]`, both points land in the single bin, and the counts
sum to the sample size. -/
theorem claim9_witness :
    List.sum [(2 : ℝ)] = ((([1, 2] : List ℝ).length : ℕ) : ℝ) :=
  claim9 1 [2]
    (by intro x hx; simp at hx; rcases hx with rfl | rfl <;> norm_num)
    (by simp) [2] [1, 2] histogram_one_two_eval

/-! ## Claim C5: the default log-spaced edges -/

/-- C5 (counterexample): on the sample `[-5, 1, 10]` the spec's `arrMin`
(minimum of the strictly-positive elements) is `1`, so the spec's first
default edge is `10^(log10 1) = 1`; the code instead takes the minimum of
the *nonzero* elements, `-5`, and its first edge is `10^(log10(-5)) ≠ 1`
(IEEE: `nan`). -/
theorem claim5_counterexample :
    (okD (specLogbins [-5, 1, 10])).getD 0 0 = 1 ∧
    (sndD (histogram [-5, 1, 10] none false)).getD 0 0 ≠
      (okD (specLogbins [-5, 1, 10])).getD 0 0 := by
  have hN3 : 2 ≤ (⌈Real.logb 2 ((([-5, 1, 10] : List ℝ).length : ℕ) : ℝ)⌉ + 1).toNat :=
    nbins_ge_two _ (by simp)
  have hspec : specLogbins [-5, 1, 10] =
      .ok (logspace (Real.logb 10 (List.foldl min 1 [10]))
        (Real.logb 10 (List.foldl max ([1, 10] : List ℝ).headI [-5, 1, 10]))
        (⌈Real.logb 2 ((([-5, 1, 10] : List ℝ).length : ℕ) : ℝ)⌉ + 1).toNat) := by
    have hfp : ([-5, 1, 10] : List ℝ).filter (fun x => decide (0 < x)) = [1, 10] := by
      norm_num [List.filter_cons, List.filter_nil]
    simp only [specLogbins]
    rw [hfp]
    simp
  have hspec0 : (okD (specLogbins [-5, 1, 10])).getD 0 0 = 1 := by
    rw [hspec]
    simp only [okD]
    rw [logspace_getD_zero _ _ _ (by omega)]
    have : List.foldl min (1 : ℝ) [10] = 1 := by norm_num
    rw [this, Real.logb_one, Real.rpow_zero]
  refine ⟨hspec0, ?_⟩
  have hf : ([-5, 1, 10] : List ℝ).filter (fun x => decide (x ≠ 0)) = [-5, 1, 10] := by
    norm_num [List.filter_cons, List.filter_nil]
  have hlb := logbins_cons_eval (-5) [1, 10] (-5) [1, 10] hf
  rw [histogram_default_eval _ _ hlb false]
  simp only [sndD]
  rw [logspace_getD_zero _ _ _ (by omega)]
  have hmin : List.foldl min (-5 : ℝ) [1, 10] = -5 := by norm_num
  rw [hmin, hspec0]
  rw [Real.rpow_logb_of_neg (by norm_num) (by norm_num) (by norm_num : (-5 : ℝ) < 0)]
  norm_num

/-- C5 (amended): when `bins` is not supplied, the histogram edges are
`numBins = ⌈log₂ n⌉ + 1` points evenly spaced in log10 space between
`log10 arrMin` and `log10 arrMax`, where `arrMin` is the minimum of the
*nonzero* (not strictly-positive) elements and `arrMax` the overall
maximum. -/
theorem claim5 (a : ℝ) (rest : List ℝ) (m mn mx : ℝ) (ms : List ℝ)
    (hf : (a :: rest).filter (fun x => decide (x ≠ 0)) = m :: ms)
    (hmn1 : mn ∈ m :: ms) (hmn2 : ∀ x ∈ m :: ms, mn ≤ x)
    (hmx1 : mx ∈ a :: rest) (hmx2 : ∀ x ∈ a :: rest, x ≤ mx) :
    ∀ (d : Bool) (counts edges : List ℝ),
      histogram (a :: rest) none d = .ok (counts, edges) →
      edges.length = (⌈Real.logb 2 (((a :: rest).length : ℕ) : ℝ)⌉ + 1).toNat ∧
      ∀ i < (⌈Real.logb 2 (((a :: rest).length : ℕ) : ℝ)⌉ + 1).toNat,
        edges.getD i 0 = 10 ^ (Real.logb 10 mn +
          (i : ℝ) * (Real.logb 10 mx - Real.logb 10 mn) /
            ((((⌈Real.logb 2 (((a :: rest).length : ℕ) : ℝ)⌉ + 1).toNat : ℕ) : ℝ)
              - 1)) := by
  intro d counts edges hh
  have hminf : ms.foldl min m = mn := foldl_min_eq m mn ms hmn1 hmn2
  have hmaxf : rest.foldl max a = mx := foldl_max_eq a mx rest hmx1 hmx2
  have hlb := logbins_cons_eval a rest m ms hf
  rw [hminf, hmaxf] at hlb
  rw [histogram_default_eval _ _ hlb d] at hh
  have he : edges = logspace (Real.logb 10 mn) (Real.logb 10 mx)
      (⌈Real.logb 2 (((a :: rest).length : ℕ) : ℝ)⌉ + 1).toNat :=
    (congrArg Prod.snd (Except.ok.inj hh)).symm
  subst he
  refine ⟨logspace_length _ _ _, ?_⟩
  intro i hi
  exact logspace_getD _ _ _ i hi

/-- C5 (witness): amended claim instantiated on the sample `[1, 2]` with
`arrMin = 1`, `arrMax = 2`, `numBins = 2`. -/
theorem claim5_witness :
    ([1, 2] : List ℝ).length =
      (⌈Real.logb 2 ((([1, 2] : List ℝ).length : ℕ) : ℝ)⌉ + 1).toNat ∧
    ∀ i < (⌈Real.logb 2 ((([1, 2] : List ℝ).length : ℕ) : ℝ)⌉ + 1).toNat,
      ([1, 2] : List ℝ).getD i 0 = 10 ^ (Real.logb 10 1 +
        (i : ℝ) * (Real.logb 10 2 - Real.logb 10 1) /
          ((((⌈Real.logb 2 ((([1, 2] : List ℝ).length : ℕ) : ℝ)⌉ + 1).toNat : ℕ) : ℝ)
            - 1)) :=
  claim5 1 [2] 1 1 2 [2]
    (by norm_num [List.filter_cons, List.filter_nil])
    (by simp)
    (by intro x hx; simp at hx; rcases hx with rfl | rfl <;> norm_num)
    (by simp)
    (by intro x hx; simp at hx; rcases hx with rfl | rfl <;> norm_num)
    false [2] [1, 2] histogram_one_two_eval

/-! ## Claim C3: histogram normalisation -/

/-- C3 (counterexample): the sample `[0, 1, 10, 100]` has size `4`, but its
zero is dropped by the default edges `[1, 10, 100]`, so numpy's density
normalisation divides by the in-range count `3`, not the sample size `4`:
the first normalised value is `1/(3·9) = 1/27`, while the claim demands
`1/(4·9)`. -/
theorem claim3_counterexample :
    histogram [0, 1, 10, 100] none true = .ok ([1/27, 1/135], [1, 10, 100]) ∧
    (1/27 : ℝ) ≠ 1 / (4 * (10 - 1)) := by
  refine ⟨?_, by norm_num⟩
  have hf : ([0, 1, 10, 100] : List ℝ).filter (fun x => decide (x ≠ 0)) =
      [1, 10, 100] := by
    norm_num [List.filter_cons, List.filter_nil]
  have hlb := logbins_cons_eval 0 [1, 10, 100] 1 [10, 100] hf
  have hceil :
      (⌈Real.logb 2 ((([0, 1, 10, 100] : List ℝ).length : ℕ) : ℝ)⌉ + 1).toNat = 3 := by
    have h4 : ((([0, 1, 10, 100] : List ℝ).length : ℕ) : ℝ) = 2 ^ (2 : ℕ) := by
      norm_num
    rw [h4, Real.logb_pow, Real.logb_self_eq_one (by norm_num)]
    norm_num
    rfl
  have h102 : (10 : ℝ) ^ (2 : ℝ) = 100 := by
    rw [show (2 : ℝ) = ((2 : ℕ) : ℝ) by norm_num, Real.rpow_natCast]
    norm_num
  have hlogb100 : Real.logb 10 (100 : ℝ) = 2 := by
    rw [show (100 : ℝ) = 10 ^ (2 : ℕ) by norm_num, Real.logb_pow,
      Real.logb_self_eq_one (by norm_num)]
    norm_num
  have hedges : logspace (Real.logb 10 (List.foldl min 1 [10, 100]))
      (Real.logb 10 (List.foldl max 0 [1, 10, 100]))
      (⌈Real.logb 2 ((([0, 1, 10, 100] : List ℝ).length : ℕ) : ℝ)⌉ + 1).toNat =
      [1, 10, 100] := by
    rw [hceil]
    have hmin : List.foldl min (1 : ℝ) [10, 100] = 1 := by norm_num
    have hmax : List.foldl max (0 : ℝ) [1, 10, 100] = 100 := by norm_num
    rw [hmin, hmax, Real.logb_one, hlogb100]
    simp only [logspace, linspace, List.range_succ, List.range_zero,
      List.map_cons, List.map_nil, List.nil_append, List.cons_append,
      List.append_nil]
    norm_num [h102]
  rw [hedges] at hlb
  rw [histogram_default_eval _ _ hlb true]
  have hbc : binCounts [0, 1, 10, 100] [1, 10, 100] = [1, 2] := by
    simp only [binCounts]
    norm_num [List.countP_cons, List.countP_nil]
  have hdn : densityNormalize [1, 2] [1, 10, 100] = [1/27, 1/135] := by
    simp only [densityNormalize, binWidths, List.zip_cons_cons, List.zip_nil_right,
      List.map_cons, List.map_nil, List.sum_cons, List.sum_nil]
    norm_num
  simp [histValues, hbc, hdn]

/-- C3 (amended): without normalisation the returned counts are the raw
integer frequencies; with normalisation each count is divided by
(number of in-range sample points × bin width), which equals
(sample size × bin width) whenever every element is strictly positive
(as here, sample size ≥ 2). -/
theorem claim3 (a : ℝ) (rest : List ℝ) (hpos : ∀ x ∈ a :: rest, 0 < x)
    (hlen : 2 ≤ (a :: rest).length) :
    (∀ counts edges, histogram (a :: rest) none false = .ok (counts, edges) →
      counts = (binCounts (a :: rest) edges).map (fun c : ℕ => (c : ℝ))) ∧
    (∀ counts edges, histogram (a :: rest) none true = .ok (counts, edges) →
      ∀ i, i + 1 < edges.length →
        counts.getD i 0 = ((binCounts (a :: rest) edges).getD i 0 : ℝ) /
          ((((a :: rest).length : ℕ) : ℝ) *
            (edges.getD (i + 1) 0 - edges.getD i 0))) := by
  have hf : (a :: rest).filter (fun x => decide (x ≠ 0)) = a :: rest :=
    List.filter_eq_self.mpr fun x hx => by
      simp [ne_of_gt (hpos x hx)]
  have hlb := logbins_cons_eval a rest a rest hf
  constructor
  · intro counts edges hh
    rw [histogram_default_eval _ _ hlb false] at hh
    have hpq := Except.ok.inj hh
    have hc : counts = histValues (a :: rest)
        (logspace (Real.logb 10 (rest.foldl min a))
          (Real.logb 10 (rest.foldl max a))
          (⌈Real.logb 2 (((a :: rest).length : ℕ) : ℝ)⌉ + 1).toNat) false :=
      (congrArg Prod.fst hpq).symm
    have he : edges = logspace (Real.logb 10 (rest.foldl min a))
        (Real.logb 10 (rest.foldl max a))
        (⌈Real.logb 2 (((a :: rest).length : ℕ) : ℝ)⌉ + 1).toNat :=
      (congrArg Prod.snd hpq).symm
    rw [hc, he]
    simp [histValues]
  · intro counts edges hh i hi
    rw [histogram_default_eval _ _ hlb true] at hh
    have hpq := Except.ok.inj hh
    have hc : counts = histValues (a :: rest)
        (logspace (Real.logb 10 (rest.foldl min a))
          (Real.logb 10 (rest.foldl max a))
          (⌈Real.logb 2 (((a :: rest).length : ℕ) : ℝ)⌉ + 1).toNat) true :=
      (congrArg Prod.fst hpq).symm
    have he : edges = logspace (Real.logb 10 (rest.foldl min a))
        (Real.logb 10 (rest.foldl max a))
        (⌈Real.logb 2 (((a :: rest).length : ℕ) : ℝ)⌉ + 1).toNat :=
      (congrArg Prod.snd hpq).symm
    subst he
    rw [hc]
    simp only [histValues, if_pos]
    rw [densityNormalize_getD _ _ i (binCounts_length _ _) hi]
    rw [binCountsSum_pos a rest hpos hlen]

/-- C3 (witness): amended claim's raw-count part instantiated on the
all-positive sample `[1, 2]`. -/
theorem claim3_witness :
    [(2 : ℝ)] = (binCounts [1, 2] [1, 2]).map (fun c : ℕ => (c : ℝ)) :=
  (claim3 1 [2]
    (by intro x hx; simp at hx; rcases hx with rfl | rfl <;> norm_num)
    (by simp)).1 [2] [1, 2] histogram_one_two_eval

/-! ## Claim C10: caller-supplied bins never survive the truth test -/

/-- C10 (confirmed): a caller-supplied edge array with two or more entries
makes `histogram` fail at the Python truth test `not bins` with the
ambiguous-truth-value `ValueError`, before any counting happens. -/
theorem claim10 (arr : List ℝ) (bins : List ℝ) (d : Bool)
    (h : 2 ≤ bins.length) :
    histogram arr (some bins) d = .error truthMsg := by
  cases bins with
  | nil => simp at h
  | cons b1 t =>
    cases t with
    | nil => simp at h
    | cons b2 t2 => rfl

/-- C10 (witness): instantiated with the two-edge array `[1, 2]`. -/
theorem claim10_witness :
    histogram [1] (some [1, 2]) false = .error truthMsg :=
  claim10 [1] [1, 2] false (by simp)

end

end BPL
